import Mathlib

/-!
Verification of the `critical-section` library (`src/critical-section.ts`).

The library implements object-keyed mutual exclusion on top of a single
module-level `WeakMap` (`const map = new WeakMap<object, Locking>()`).
Keys are object identities; we model them as natural numbers.  A `Locking`
value holds a promise and its `resolve` function; we model each promise by
a freshly allocated natural-number id (`pid`).  Resolving a promise (which
in the source always happens with the value `true`, in `leave`) is modelled
by appending its id to a `fired` list.

Timers created by `setTimeout` inside `_wait` are likewise modelled by
freshly allocated ids (`tid`).  A pending `Promise.race` of a timed
`enter`/`waitLeave` call is a `Waiter` record: which caller is suspended,
on which key and promise id, with which continuation (`enter` retry or
`waitLeave` completion, each remembering the `timeout` argument), and the
id of its timer when `timeout > 0` (no timer otherwise, mirroring
`if (timeout > 0)` in `_wait`).

The event-loop behaviour of the promises is captured by a step function
over explicit actions: a caller invoking `enter`/`waitLeave`, a holder
invoking `leave`, or a timer firing.  Resolving a release signal wakes the
suspended continuations in registration order, which is exactly the order
in which `.then` callbacks on the same promise run.
-/

namespace CriticalSectionModel

/-- Lookup in the registry, modelling `map.get(obj)` / `map.has(obj)` on the
module-level `WeakMap` (key identity compared). -/
def mapGet : List (Nat × Nat) → Nat → Option Nat
  | [], _ => none
  | (k', v) :: rest, k => if k' = k then some v else mapGet rest k

/-- Update in the registry, modelling `map.set(obj, value)` (replaces an
existing entry for the key, otherwise appends). -/
def mapSet : List (Nat × Nat) → Nat → Nat → List (Nat × Nat)
  | [], k, v => [(k, v)]
  | (k', v') :: rest, k, v => if k' = k then (k, v) :: rest else (k', v') :: mapSet rest k v

/-- Deletion from the registry, modelling `map.delete(obj)`. -/
def mapDel : List (Nat × Nat) → Nat → List (Nat × Nat)
  | [], _ => []
  | (k', v) :: rest, k => if k' = k then rest else (k', v) :: mapDel rest k

/-- Membership test, modelling `map.has(obj)`. -/
def mapHas (m : List (Nat × Nat)) (k : Nat) : Bool :=
  (mapGet m k).isSome

/-- The continuation a suspended caller is holding: the `.then` callback of
`enter` (which retries with the same `timeout` argument) or the direct
result of `waitLeave` (which just returns the race's value).  Both remember
the `timeout` argument of the original call. -/
inductive WKind where
  | enterK (t : Int)
  | waitLeaveK (t : Int)
  deriving Repr, DecidableEq

/-- A suspended `Promise.race` from `_wait`: caller `caller` is waiting on
key `key`, observing the release promise `pid`; `timerId` is `some tid`
exactly when `_wait` installed a `setTimeout` (i.e. when `timeout > 0`). -/
structure Waiter where
  caller : Nat
  key : Nat
  pid : Nat
  kind : WKind
  timerId : Option Nat
  deriving Repr, DecidableEq

/-- The whole mutable state of the module: the registry (`map`),
allocation counters for promise and timer ids, the suspended waiters (in
registration order), the list of promise ids that have been resolved
(each with value `true`, by `leave`), and the log of results delivered to
callers of `enter` / `waitLeave`, in delivery order. -/
structure St where
  reg : List (Nat × Nat)
  nextPid : Nat
  nextTid : Nat
  waiters : List Waiter
  fired : List Nat
  log : List (Nat × Bool)
  deriving Repr, DecidableEq

/-- The initial state: empty `WeakMap`, nothing suspended, nothing fired. -/
def initSt : St :=
  { reg := [], nextPid := 0, nextTid := 0, waiters := [], fired := [], log := [] }

/-- The method `CriticalSection._lock(obj)`: create a fresh promise (a fresh `pid`)
and `map.set(obj, value)`. -/
def lockSt (s : St) (k : Nat) : St :=
  { s with reg := mapSet s.reg k s.nextPid, nextPid := s.nextPid + 1 }

/-- The method `CriticalSection.tryEnter(obj)`: `if (map.has(obj)) return false;`
otherwise `this._lock(obj); return true;`.  Purely synchronous. -/
def tryEnter (s : St) (k : Nat) : Bool × St :=
  if mapHas s.reg k then (false, s) else (true, lockSt s k)

/-- The method `CriticalSection.isLocked(obj)`: returns `map.has(obj)`. -/
def isLocked (s : St) (k : Nat) : Bool :=
  mapHas s.reg k

/-- The synchronous body of `CriticalSection.leave(obj)`: if the key has an
entry, `map.delete(obj)` and then `value.resolve?.(true)` — the entry is
removed first, and the resolution (recorded in `fired`) carries `true`.
Waking the suspended `.then` callbacks is the promise machinery's job and
is modelled separately by the scheduler (`stepLeave`). -/
def leave (s : St) (k : Nat) : St :=
  match mapGet s.reg k with
  | none => s
  | some pid => { s with reg := mapDel s.reg k, fired := s.fired ++ [pid] }

/-- Waking one suspended waiter with the settled value of its race.
For a `waitLeave` continuation the value is delivered as the call's result.
For an `enter` continuation: value `false` (the timer won the race) is
returned as the result; value `true` re-invokes `enter(obj, timeout)` with
the same `timeout` argument — if the key is now free it locks and resolves
`true`, otherwise it suspends again on the new holder's promise, with a
fresh timer when `timeout > 0` (this unfolds exactly one level of
`this._wait(cache, timeout).then(result => result ? this.enter(obj, timeout) : result)`). -/
def wake (s : St) (w : Waiter) (value : Bool) : St :=
  match w.kind with
  | .waitLeaveK _ => { s with log := s.log ++ [(w.caller, value)] }
  | .enterK t =>
    if value then
      match mapGet s.reg w.key with
      | some pid' =>
        { s with
          waiters := s.waiters ++
            [{ caller := w.caller, key := w.key, pid := pid', kind := .enterK t,
               timerId := if 0 < t then some s.nextTid else none }],
          nextTid := if 0 < t then s.nextTid + 1 else s.nextTid }
      | none => { lockSt s w.key with log := s.log ++ [(w.caller, true)] }
    else
      { s with log := s.log ++ [(w.caller, false)] }

/-- Deliver the resolved value `true` to a list of woken waiters, in
registration order (the order `.then` callbacks on one promise run). -/
def processWakes (s : St) : List Waiter → St
  | [] => s
  | w :: ws => processWakes (wake s w true) ws

/-- A caller invoking `enter(obj, timeout)`: if the key is held
(`isLocking(cache)`), suspend on the holder's promise — with a timer id
exactly when `timeout > 0`, mirroring `_wait` — performing no registry
mutation; if free, `_lock` and resolve `true` immediately. -/
def stepEnter (s : St) (c k : Nat) (t : Int) : St :=
  match mapGet s.reg k with
  | some pid =>
    { s with
      waiters := s.waiters ++
        [{ caller := c, key := k, pid := pid, kind := .enterK t,
           timerId := if 0 < t then some s.nextTid else none }],
      nextTid := if 0 < t then s.nextTid + 1 else s.nextTid }
  | none => { lockSt s k with log := s.log ++ [(c, true)] }

/-- A caller invoking `waitLeave(obj, timeout)`: if the key is held,
suspend exactly as `enter` does (same `_wait`) but with the `waitLeave`
continuation; if free, resolve `true` immediately with no state change. -/
def stepWaitLeave (s : St) (c k : Nat) (t : Int) : St :=
  match mapGet s.reg k with
  | some pid =>
    { s with
      waiters := s.waiters ++
        [{ caller := c, key := k, pid := pid, kind := .waitLeaveK t,
           timerId := if 0 < t then some s.nextTid else none }],
      nextTid := if 0 < t then s.nextTid + 1 else s.nextTid }
  | none => { s with log := s.log ++ [(c, true)] }

/-- A holder invoking `leave(obj)` followed by the event loop delivering
the resolution to every waiter suspended on the resolved promise, in
registration order.  Waiters on other promises are untouched. -/
def stepLeave (s : St) (k : Nat) : St :=
  match mapGet s.reg k with
  | none => s
  | some pid =>
    let woken := s.waiters.filter (fun w => w.pid == pid)
    let rest := s.waiters.filter (fun w => w.pid != pid)
    processWakes { leave s k with waiters := rest } woken

/-- A `setTimeout` timer firing: it resolves its race with `false` if that
race is still pending (the waiter is still registered); if the release
signal already settled the race, the timer's resolve is a no-op. -/
def stepTimer (s : St) (tid : Nat) : St :=
  match s.waiters.find? (fun w => w.timerId == some tid) with
  | none => s
  | some w =>
    wake { s with waiters := s.waiters.filter (fun w2 => w2.timerId != some tid) } w false

/-- The observable events of a run: API calls and timer expirations. -/
inductive Act where
  | enterA (c k : Nat) (t : Int)
  | waitLeaveA (c k : Nat) (t : Int)
  | leaveA (k : Nat)
  | timerA (tid : Nat)
  deriving Repr, DecidableEq

/-- One scheduler step. -/
def step (s : St) : Act → St
  | .enterA c k t => stepEnter s c k t
  | .waitLeaveA c k t => stepWaitLeave s c k t
  | .leaveA k => stepLeave s k
  | .timerA tid => stepTimer s tid

/-- Run a schedule of actions from a state. -/
def run (s : St) : List Act → St
  | [] => s
  | a :: as => run (step s a) as

/-! ### Instance wrappers

The source stores the registry in the module-level `const map = new WeakMap()`
(line 12), not in a field of `CriticalSection`; the class has no instance
state at all.  Consequently every method behaves identically on every
instance.  We expose instance-taking wrappers whose extra argument is the
instance identity; faithfully to the source, the body never consults it. -/

/-- The call `cs.tryEnter(k)` invoked on instance `cs`. -/
def tryEnterOn (_cs : Nat) (s : St) (k : Nat) : Bool × St :=
  tryEnter s k

/-- The call `cs.isLocked(k)` invoked on instance `cs`. -/
def isLockedOn (_cs : Nat) (s : St) (k : Nat) : Bool :=
  isLocked s k

/-- A scheduler action performed through instance `cs`. -/
def stepOn (_cs : Nat) (s : St) (a : Act) : St :=
  step s a

/-! ### Basic registry lemmas -/

theorem mapGet_mapSet_self (m : List (Nat × Nat)) (k v : Nat) :
    mapGet (mapSet m k v) k = some v := by
  induction m with
  | nil => simp [mapSet, mapGet]
  | cons p rest ih =>
    obtain ⟨k', v'⟩ := p
    by_cases h : k' = k
    · simp [mapSet, mapGet, h]
    · simp [mapSet, mapGet, h, ih]

theorem mapSet_of_get_none (m : List (Nat × Nat)) (k v : Nat)
    (h : mapGet m k = none) : mapSet m k v = m ++ [(k, v)] := by
  induction m with
  | nil => simp [mapSet]
  | cons p rest ih =>
    obtain ⟨k', v'⟩ := p
    by_cases hk : k' = k
    · simp [mapGet, hk] at h
    · simp [mapGet, hk] at h
      simp [mapSet, hk, ih h]

theorem not_mem_keys_of_get_none (m : List (Nat × Nat)) (k : Nat)
    (h : mapGet m k = none) : k ∉ m.map Prod.fst := by
  induction m with
  | nil => simp
  | cons p rest ih =>
    obtain ⟨k', v'⟩ := p
    by_cases hk : k' = k
    · simp [mapGet, hk] at h
    · simp [mapGet, hk] at h
      rw [List.map_cons]
      intro hmem
      rcases List.mem_cons.mp hmem with heq | hmem'
      · exact hk heq.symm
      · exact ih h hmem'

theorem mem_pids_of_get_some (m : List (Nat × Nat)) (k pid : Nat)
    (h : mapGet m k = some pid) : pid ∈ m.map Prod.snd := by
  induction m with
  | nil => simp [mapGet] at h
  | cons p rest ih =>
    obtain ⟨k', v'⟩ := p
    by_cases hk : k' = k
    · simp [mapGet, hk] at h
      simp [h]
    · simp [mapGet, hk] at h
      rw [List.map_cons]
      exact List.mem_cons_of_mem _ (ih h)

theorem mapDel_sublist (m : List (Nat × Nat)) (k : Nat) :
    (mapDel m k).Sublist m := by
  induction m with
  | nil => simp [mapDel]
  | cons p rest ih =>
    obtain ⟨k', v'⟩ := p
    by_cases hk : k' = k
    · rw [mapDel]
      simp only [if_pos hk]
      exact List.sublist_cons_self (k', v') rest
    · simpa [mapDel, hk] using List.Sublist.cons₂ (k', v') ih

theorem mapGet_eq_none_of_not_mem_keys (m : List (Nat × Nat)) (k : Nat)
    (h : k ∉ m.map Prod.fst) : mapGet m k = none := by
  induction m with
  | nil => rfl
  | cons p rest ih =>
    obtain ⟨k', v'⟩ := p
    rw [List.map_cons] at h
    have hk : ¬ k' = k := by
      rintro rfl
      exact h (List.mem_cons_self _ _)
    rw [mapGet, if_neg hk]
    exact ih fun hm => h (List.mem_cons_of_mem _ hm)

theorem mapGet_mapDel_self (m : List (Nat × Nat)) (k : Nat)
    (hnd : (m.map Prod.fst).Nodup) : mapGet (mapDel m k) k = none := by
  induction m with
  | nil => simp [mapDel, mapGet]
  | cons p rest ih =>
    obtain ⟨k', v'⟩ := p
    rw [List.map_cons, List.nodup_cons] at hnd
    by_cases hk : k' = k
    · subst hk
      simp only [mapDel, if_pos rfl]
      exact mapGet_eq_none_of_not_mem_keys rest k' hnd.1
    · simp [mapDel, hk, mapGet, hk, ih hnd.2]

theorem pid_not_mem_mapDel_pids (m : List (Nat × Nat)) (k pid : Nat)
    (hnd : (m.map Prod.snd).Nodup) (h : mapGet m k = some pid) :
    pid ∉ (mapDel m k).map Prod.snd := by
  induction m with
  | nil => simp [mapGet] at h
  | cons p rest ih =>
    obtain ⟨k', v'⟩ := p
    rw [List.map_cons, List.nodup_cons] at hnd
    by_cases hk : k' = k
    · simp [mapGet, hk] at h
      simp only [mapDel, hk, if_pos rfl]
      rw [← h]
      exact hnd.1
    · simp [mapGet, hk] at h
      simp only [mapDel, hk, if_neg hk, List.map_cons]
      intro hmem
      rcases List.mem_cons.mp hmem with heq | hmem'
      · exact hnd.1 (heq ▸ mem_pids_of_get_some rest k pid h)
      · exact ih hnd.2 h hmem'

/-! ### Scratch checks of the model on concrete runs -/

example : (run initSt [.enterA 0 5 0]).log = [(0, true)] := by decide

example :
    (run initSt [.enterA 0 5 0, .enterA 1 5 0, .leaveA 5]).log =
      [(0, true), (1, true)] := by decide

example :
    (run initSt [.enterA 0 5 0, .enterA 1 5 50, .timerA 0]).log =
      [(0, true), (1, false)] := by decide

example :
    (run initSt [.enterA 0 5 0, .waitLeaveA 1 5 0, .leaveA 5]).log =
      [(0, true), (1, true)] := by decide

/-! ### Claim theorems: synchronous operations -/

/-- C4: `tryEnter(k)` decides immediately without suspending (it is a pure
synchronous function): it returns `true` and creates a Lock Entry for `k`
(a fresh promise registered under `k`, via `_lock`) iff `k` was free at the
instant of the call, and returns `false` with no change at all to the
state iff `k` was already held. -/
theorem tryEnter_immediate_decision (s : St) (k : Nat) :
    ((tryEnter s k).1 = true ↔ mapGet s.reg k = none) ∧
    (mapGet s.reg k = none →
      tryEnter s k = (true, lockSt s k) ∧ isLocked (tryEnter s k).2 k = true) ∧
    (∀ pid, mapGet s.reg k = some pid → tryEnter s k = (false, s)) := by
  refine ⟨?_, ?_, ?_⟩
  · cases hget : mapGet s.reg k with
    | none => simp [tryEnter, mapHas, hget]
    | some pid => simp [tryEnter, mapHas, hget]
  · intro h
    constructor
    · simp [tryEnter, mapHas, h]
    · simp [tryEnter, mapHas, h, isLocked, lockSt, mapGet_mapSet_self]
  · intro pid h
    simp [tryEnter, mapHas, h]

/-- Closed witness for `tryEnter_immediate_decision`: evaluated on the
state where key 7 is held and key 3 is free. -/
theorem tryEnter_immediate_decision_witness :
    (mapGet (lockSt initSt 7).reg 3 = none →
      tryEnter (lockSt initSt 7) 3 = (true, lockSt (lockSt initSt 7) 3) ∧
        isLocked (tryEnter (lockSt initSt 7) 3).2 3 = true) ∧
    (∀ pid, mapGet (lockSt initSt 7).reg 7 = some pid →
      tryEnter (lockSt initSt 7) 7 = (false, lockSt initSt 7)) := by
  exact ⟨(tryEnter_immediate_decision (lockSt initSt 7) 3).2.1,
    (tryEnter_immediate_decision (lockSt initSt 7) 7).2.2⟩

/-- C5: `leave(k)` on a key with no Lock Entry is a total no-op — the
returned state is the argument state itself, so in particular no signal is
fired (`fired` is unchanged) and nothing can throw.  Consequently `leave`
is idempotent: a second `leave(k)` right after a first one (before any
other registry mutation) finds no entry and changes nothing, so two calls
in a row equal one call.  (The `Nodup` hypothesis on the registry's keys
holds in every state the code can build, since `WeakMap` keys are unique.) -/
theorem leave_of_get_none (s : St) (k : Nat) (h : mapGet s.reg k = none) :
    leave s k = s := by
  simp [leave, h]

theorem leave_noop_and_idempotent (s : St) (k : Nat) :
    (mapGet s.reg k = none → leave s k = s) ∧
    ((s.reg.map Prod.fst).Nodup → leave (leave s k) k = leave s k) := by
  constructor
  · exact leave_of_get_none s k
  · intro hnd
    cases hget : mapGet s.reg k with
    | none =>
      rw [leave_of_get_none s k hget]
      exact leave_of_get_none s k hget
    | some pid =>
      have hdel : mapGet (leave s k).reg k = none := by
        simp only [leave, hget]
        exact mapGet_mapDel_self s.reg k hnd
      exact leave_of_get_none (leave s k) k hdel

/-- Closed witness for `leave_noop_and_idempotent`: the state where key 7
is held (and key 3 never was). -/
theorem leave_noop_and_idempotent_witness :
    (mapGet (lockSt initSt 7).reg 3 = none → leave (lockSt initSt 7) 3 = lockSt initSt 7) ∧
    (((lockSt initSt 7).reg.map Prod.fst).Nodup →
      leave (leave (lockSt initSt 7) 7) 7 = leave (lockSt initSt 7) 7) := by
  exact ⟨(leave_noop_and_idempotent (lockSt initSt 7) 3).1,
    (leave_noop_and_idempotent (lockSt initSt 7) 7).2⟩

/-- C7: `enter(k, t)` on a currently free key, for any timeout `t`,
acquires immediately: it creates a new Lock Entry (`_lock` registers a
fresh promise under `k`), resolves `true` without suspending (no waiter is
registered), and afterwards `isLocked(k)` is `true`. -/
theorem enter_free_key_immediate (s : St) (c k : Nat) (t : Int)
    (h : mapGet s.reg k = none) :
    step s (.enterA c k t) = { lockSt s k with log := s.log ++ [(c, true)] } ∧
    isLocked (step s (.enterA c k t)) k = true ∧
    (step s (.enterA c k t)).waiters = s.waiters := by
  have h1 : step s (.enterA c k t) = { lockSt s k with log := s.log ++ [(c, true)] } := by
    simp [step, stepEnter, h]
  refine ⟨h1, ?_, ?_⟩
  · rw [h1]
    simp [isLocked, mapHas, lockSt, mapGet_mapSet_self]
  · rw [h1]
    rfl

/-- Closed witness for `enter_free_key_immediate`: entering key 3 with
timeout 100 in the initial state. -/
theorem enter_free_key_immediate_witness :
    step initSt (.enterA 0 3 100) = { lockSt initSt 3 with log := [(0, true)] } ∧
    isLocked (step initSt (.enterA 0 3 100)) 3 = true ∧
    (step initSt (.enterA 0 3 100)).waiters = [] := by
  exact enter_free_key_immediate initSt 0 3 100 (by decide)

/-- C1 counterexample: the registry is the module-level
`const map = new WeakMap()` shared by every `CriticalSection` instance, so
two distinct instances are NOT disjoint.  Concretely: after instance 0
successfully enters key 0 from the initial state, instance 1's
`tryEnter(0)` returns `false` (not `true`) and instance 1's `isLocked(0)`
is `true` (not `false`). -/
theorem instance_disjointness_cex :
    ¬ ((tryEnterOn 1 (stepOn 0 initSt (.enterA 0 0 0)) 0).1 = true ∧
       isLockedOn 1 (stepOn 0 initSt (.enterA 0 0 0)) 0 = false) := by
  decide

/-- C1 (amended): all `CriticalSection` instances share the single
module-level registry.  After any instance `i` successfully enters a free
key `k`, the key is held for every instance `j`: `j.tryEnter(k)` returns
`false` with no state change and `j.isLocked(k)` is `true`. -/
theorem instances_share_registry (i j c k : Nat) (s : St) (t : Int)
    (h : mapGet s.reg k = none) :
    (stepOn i s (.enterA c k t)).log = s.log ++ [(c, true)] ∧
    tryEnterOn j (stepOn i s (.enterA c k t)) k = (false, stepOn i s (.enterA c k t)) ∧
    isLockedOn j (stepOn i s (.enterA c k t)) k = true := by
  have h1 : stepOn i s (.enterA c k t) = { lockSt s k with log := s.log ++ [(c, true)] } := by
    simp [stepOn, step, stepEnter, h]
  refine ⟨by rw [h1], ?_, ?_⟩
  · rw [h1]
    simp [tryEnterOn, tryEnter, mapHas, lockSt, mapGet_mapSet_self]
  · rw [h1]
    simp [isLockedOn, isLocked, mapHas, lockSt, mapGet_mapSet_self]

/-- Closed witness for `instances_share_registry`: instance 0 enters key 5
in the initial state; instance 1 then observes it held. -/
theorem instances_share_registry_witness :
    (stepOn 0 initSt (.enterA 2 5 0)).log = [(2, true)] ∧
    tryEnterOn 1 (stepOn 0 initSt (.enterA 2 5 0)) 5 = (false, stepOn 0 initSt (.enterA 2 5 0)) ∧
    isLockedOn 1 (stepOn 0 initSt (.enterA 2 5 0)) 5 = true := by
  exact instances_share_registry 0 1 2 5 initSt 0 (by decide)

/-- C2: when the release signal wakes a timed `enter` (timeout `t > 0`)
and the key is already held again (the caller lost the re-acquisition
race), the continuation re-invokes `enter(obj, timeout)` with the very
same `timeout` value: the caller re-suspends behind the next holder's
promise `pid2` with the same `t` and a freshly installed timer — a fresh
per-attempt timeout window, not a total deadline. -/
theorem timed_retry_same_timeout (s : St) (w : Waiter) (t : Int) (pid2 : Nat)
    (hkind : w.kind = .enterK t) (ht : 0 < t)
    (hheld : mapGet s.reg w.key = some pid2) :
    wake s w true =
      { s with
        waiters := s.waiters ++
          [{ caller := w.caller, key := w.key, pid := pid2, kind := .enterK t,
             timerId := some s.nextTid }],
        nextTid := s.nextTid + 1 } := by
  simp [wake, hkind, hheld, ht]

/-- Closed witness for `timed_retry_same_timeout`: a waiter that called
`enter(9, 5)` is woken by the release signal while key 9 is held again. -/
theorem timed_retry_same_timeout_witness :
    wake (step initSt (.enterA 0 9 0))
        { caller := 1, key := 9, pid := 0, kind := .enterK 5, timerId := some 0 } true =
      { step initSt (.enterA 0 9 0) with
        waiters := [{ caller := 1, key := 9, pid := 0, kind := .enterK 5, timerId := some 0 }],
        nextTid := 1 } := by
  have h := timed_retry_same_timeout (step initSt (.enterA 0 9 0))
    { caller := 1, key := 9, pid := 0, kind := .enterK 5, timerId := some 0 } 5 0
    (by decide) (by decide) (by decide)
  rw [h]
  decide

/-- C6: `waitLeave(k, t)` on a free key completes immediately with `true`
and changes nothing else; on a held key it suspends exactly as `enter`
does (same `_wait`: a timer iff `t > 0`); and when its race settles with
`true` the continuation just returns the value — it creates no Lock Entry,
registers no new waiter, and mutates no registry state, so the caller
never holds `k` as a result of that call alone. -/
theorem waitLeave_observes_without_locking (s : St) (c k : Nat) (t : Int) :
    (mapGet s.reg k = none →
      step s (.waitLeaveA c k t) = { s with log := s.log ++ [(c, true)] }) ∧
    (∀ pid, mapGet s.reg k = some pid →
      step s (.waitLeaveA c k t) =
        { s with
          waiters := s.waiters ++
            [{ caller := c, key := k, pid := pid, kind := .waitLeaveK t,
               timerId := if 0 < t then some s.nextTid else none }],
          nextTid := if 0 < t then s.nextTid + 1 else s.nextTid }) ∧
    (∀ w : Waiter, w.kind = .waitLeaveK t → w.caller = c →
      wake s w true = { s with log := s.log ++ [(c, true)] }) := by
  refine ⟨?_, ?_, ?_⟩
  · intro h
    simp [step, stepWaitLeave, h]
  · intro pid h
    simp [step, stepWaitLeave, h]
  · intro w hkind hc
    simp [wake, hkind, hc]

/-- Closed witness for `waitLeave_observes_without_locking`: key 3 free,
key 9 held, and a suspended `waitLeave(9, 0)` waiter being woken. -/
theorem waitLeave_observes_without_locking_witness :
    (mapGet (step initSt (.enterA 0 9 0)).reg 3 = none →
      step (step initSt (.enterA 0 9 0)) (.waitLeaveA 1 3 0) =
        { step initSt (.enterA 0 9 0) with log := [(0, true), (1, true)] }) ∧
    (∀ w : Waiter, w.kind = .waitLeaveK 0 → w.caller = 1 →
      wake (step initSt (.enterA 0 9 0)) w true =
        { step initSt (.enterA 0 9 0) with log := [(0, true), (1, true)] }) := by
  have h := waitLeave_observes_without_locking (step initSt (.enterA 0 9 0)) 1 3 0
  have h2 := waitLeave_observes_without_locking (step initSt (.enterA 0 9 0)) 1 9 0
  exact ⟨fun hfree => h.1 hfree, fun w hk hc => h2.2.2 w hk hc⟩

/-- C3: a timed `enter(k, t)` (`t > 0`) on a held key that times out before
the release signal fires completes with `false` and is free of side
effects: the suspension itself mutates nothing (registry, fired signals and
log are untouched), and when the timer wins the race the caller receives
`false`, its waiter disappears, and the registry state of every key — the
whole `reg` — as well as the fired-signal list are exactly as before, so
the timed-out caller never became a holder and created, removed or
modified no entry.  (The hypothesis on `s.waiters` says existing timer ids
are older than the fresh one, which holds in every reachable state.) -/
theorem enter_timeout_false_no_side_effects (s : St) (c k : Nat) (t : Int) (pid : Nat)
    (ht : 0 < t) (hheld : mapGet s.reg k = some pid)
    (htids : ∀ w ∈ s.waiters, ∀ i, w.timerId = some i → i < s.nextTid) :
    ((step s (.enterA c k t)).reg = s.reg ∧
     (step s (.enterA c k t)).fired = s.fired ∧
     (step s (.enterA c k t)).log = s.log) ∧
    ((step (step s (.enterA c k t)) (.timerA s.nextTid)).reg = s.reg ∧
     (step (step s (.enterA c k t)) (.timerA s.nextTid)).fired = s.fired ∧
     (step (step s (.enterA c k t)) (.timerA s.nextTid)).waiters = s.waiters ∧
     (step (step s (.enterA c k t)) (.timerA s.nextTid)).log = s.log ++ [(c, false)]) := by
  set w0 : Waiter :=
    { caller := c, key := k, pid := pid, kind := .enterK t, timerId := some s.nextTid } with hw0
  have h1 : step s (.enterA c k t) =
      { s with waiters := s.waiters ++ [w0], nextTid := s.nextTid + 1 } := by
    simp [step, stepEnter, hheld, ht, hw0]
  have hpred : ∀ w ∈ s.waiters, ¬ (w.timerId == some s.nextTid) = true := by
    intro w hw hcontra
    have := htids w hw s.nextTid (by simpa using hcontra)
    omega
  have hfind : (s.waiters ++ [w0]).find? (fun w => w.timerId == some s.nextTid) = some w0 := by
    rw [List.find?_append, List.find?_eq_none.mpr hpred]
    simp [hw0]
  have hfilter : (s.waiters ++ [w0]).filter (fun w2 => w2.timerId != some s.nextTid) =
      s.waiters := by
    rw [List.filter_append]
    have hl : s.waiters.filter (fun w2 => w2.timerId != some s.nextTid) = s.waiters :=
      List.filter_eq_self.mpr (fun w hw => by
        simp only [bne_iff_ne, ne_eq, decide_eq_true_eq]
        intro hcontra
        exact hpred w hw (by simp [hcontra]))
    have hr : [w0].filter (fun w2 => w2.timerId != some s.nextTid) = [] := by
      simp [hw0]
    rw [hl, hr, List.append_nil]
  have h2 : step (step s (.enterA c k t)) (.timerA s.nextTid) =
      { s with nextTid := s.nextTid + 1, log := s.log ++ [(c, false)] } := by
    rw [h1]
    show stepTimer _ s.nextTid = _
    rw [stepTimer]
    rw [hfind, hfilter]
    simp [wake, hw0]
  constructor
  · rw [h1]
    exact ⟨rfl, rfl, rfl⟩
  · rw [h2]
    exact ⟨rfl, rfl, rfl, rfl⟩

/-- Closed witness for `enter_timeout_false_no_side_effects`: key 9 is held
in the initial state; caller 1 calls `enter(9, 50)` and its timer fires. -/
theorem enter_timeout_false_no_side_effects_witness :
    ((step (step initSt (.enterA 0 9 0)) (.enterA 1 9 50)).reg =
        (step initSt (.enterA 0 9 0)).reg ∧
     (step (step initSt (.enterA 0 9 0)) (.enterA 1 9 50)).fired = [] ∧
     (step (step initSt (.enterA 0 9 0)) (.enterA 1 9 50)).log = [(0, true)]) ∧
    ((step (step (step initSt (.enterA 0 9 0)) (.enterA 1 9 50)) (.timerA 0)).reg =
        (step initSt (.enterA 0 9 0)).reg ∧
     (step (step (step initSt (.enterA 0 9 0)) (.enterA 1 9 50)) (.timerA 0)).fired = [] ∧
     (step (step (step initSt (.enterA 0 9 0)) (.enterA 1 9 50)) (.timerA 0)).waiters = [] ∧
     (step (step (step initSt (.enterA 0 9 0)) (.enterA 1 9 50)) (.timerA 0)).log =
       [(0, true), (1, false)]) := by
  have h := enter_timeout_false_no_side_effects (step initSt (.enterA 0 9 0)) 1 9 50 0
    (by decide) (by decide) (by decide)
  exact h

/-- The C8 contention scenario: caller 0 acquires key `k`, then callers
1, 2, 3 call `enter(k)` without a timeout, in that order, while `k` is
held. -/
def fifoSetup (k : Nat) : List Act :=
  [.enterA 0 k 0, .enterA 1 k 0, .enterA 2 k 0, .enterA 3 k 0]

/-- C8: FIFO fairness among untimed waiters, for every key `k`.  With
callers 1, 2, 3 suspended in that order, a single `leave(k)` by the holder
wakes them in registration order: caller 1 re-acquires and resolves `true`
while callers 2 and 3 have not resolved and are re-queued behind the new
holder still in order [2, 3]; as the lock keeps being released, the
remaining waiters resolve in the order 1, then 2, then 3. -/
theorem fifo_untimed_enter (k : Nat) :
    (run initSt (fifoSetup k ++ [.leaveA k])).log = [(0, true), (1, true)] ∧
    ((run initSt (fifoSetup k ++ [.leaveA k])).waiters.map Waiter.caller) = [2, 3] ∧
    (run initSt (fifoSetup k ++ [.leaveA k, .leaveA k, .leaveA k])).log =
      [(0, true), (1, true), (2, true), (3, true)] := by
  refine ⟨?_, ?_, ?_⟩ <;>
    simp [fifoSetup, run, step, stepEnter, stepLeave, leave, processWakes, wake,
      lockSt, initSt, mapGet, mapSet, mapDel, mapHas]

/-! ### Well-formedness of reachable states

Promise ids are allocated freshly by `_lock`, so in every state the code
can reach, the registry holds distinct keys (a `WeakMap` property) with
distinct, never-yet-fired promise ids below the allocation counter. -/

/-- The keys currently in the registry. -/
def regKeys (s : St) : List Nat := s.reg.map Prod.fst

/-- The promise ids currently in the registry. -/
def regPids (s : St) : List Nat := s.reg.map Prod.snd

/-- Invariant of reachable states. -/
structure StWF (s : St) : Prop where
  keysND : (regKeys s).Nodup
  pidsND : (regPids s).Nodup
  pidsLT : ∀ p ∈ regPids s, p < s.nextPid
  firedLT : ∀ p ∈ s.fired, p < s.nextPid
  pidsNotFired : ∀ p ∈ regPids s, p ∉ s.fired
  firedND : s.fired.Nodup

theorem nodup_append_singleton {l : List Nat} {a : Nat} (h : l.Nodup) (h2 : a ∉ l) :
    (l ++ [a]).Nodup := by
  rw [List.nodup_append]
  exact ⟨h, List.nodup_singleton a, by simpa [List.disjoint_singleton] using h2⟩

theorem StWF.lockSt {s : St} (h : StWF s) (k : Nat) (hfree : mapGet s.reg k = none) :
    StWF (CriticalSectionModel.lockSt s k) := by
  have hset : mapSet s.reg k s.nextPid = s.reg ++ [(k, s.nextPid)] :=
    mapSet_of_get_none s.reg k s.nextPid hfree
  have hkeys : regKeys (CriticalSectionModel.lockSt s k) = regKeys s ++ [k] := by
    simp [regKeys, CriticalSectionModel.lockSt, hset]
  have hpids : regPids (CriticalSectionModel.lockSt s k) = regPids s ++ [s.nextPid] := by
    simp [regPids, CriticalSectionModel.lockSt, hset]
  refine ⟨?_, ?_, ?_, ?_, ?_, ?_⟩
  · rw [hkeys]
    exact nodup_append_singleton h.keysND (not_mem_keys_of_get_none s.reg k hfree)
  · rw [hpids]
    exact nodup_append_singleton h.pidsND (fun hm => lt_irrefl _ (h.pidsLT _ hm))
  · rw [hpids]
    intro p hp
    rcases List.mem_append.mp hp with hp | hp
    · exact Nat.lt_succ_of_lt (h.pidsLT p hp)
    · simp at hp
      rw [hp]
      exact Nat.lt_succ_self _
  · intro p hp
    exact Nat.lt_succ_of_lt (h.firedLT p hp)
  · rw [hpids]
    intro p hp
    rcases List.mem_append.mp hp with hp | hp
    · exact h.pidsNotFired p hp
    · simp at hp
      subst hp
      exact fun hm => lt_irrefl _ (h.firedLT _ hm)
  · exact h.firedND

theorem StWF.leaveSt {s : St} (h : StWF s) (k : Nat) : StWF (leave s k) := by
  cases hget : mapGet s.reg k with
  | none => rw [leave_of_get_none s k hget]; exact h
  | some pid =>
    have hleave : leave s k = { s with reg := mapDel s.reg k, fired := s.fired ++ [pid] } := by
      simp [leave, hget]
    rw [hleave]
    have hsub : (mapDel s.reg k).Sublist s.reg := mapDel_sublist s.reg k
    have hkeys : (regKeys s).Nodup := h.keysND
    have hmem : pid ∈ regPids s := mem_pids_of_get_some s.reg k pid hget
    refine ⟨?_, ?_, ?_, ?_, ?_, ?_⟩
    · exact h.keysND.sublist (hsub.map Prod.fst)
    · exact h.pidsND.sublist (hsub.map Prod.snd)
    · intro p hp
      exact h.pidsLT p ((hsub.map Prod.snd).subset hp)
    · intro p hp
      rcases List.mem_append.mp hp with hp | hp
      · exact h.firedLT p hp
      · simp at hp
        rw [hp]
        exact h.pidsLT pid hmem
    · intro p hp
      have hp' : p ∈ regPids s := (hsub.map Prod.snd).subset hp
      intro hmem2
      rcases List.mem_append.mp hmem2 with hm | hm
      · exact h.pidsNotFired p hp' hm
      · simp at hm
        subst hm
        exact pid_not_mem_mapDel_pids s.reg k p h.pidsND hget hp
    · exact nodup_append_singleton h.firedND (h.pidsNotFired pid hmem)

theorem StWF.wakeSt {s : St} (h : StWF s) (w : Waiter) (v : Bool) : StWF (wake s w v) := by
  cases hk : w.kind with
  | waitLeaveK t =>
    simp only [wake, hk]
    exact ⟨h.keysND, h.pidsND, h.pidsLT, h.firedLT, h.pidsNotFired, h.firedND⟩
  | enterK t =>
    cases v with
    | false =>
      simp only [wake, hk, if_neg (by simp : ¬ false = true)]
      exact ⟨h.keysND, h.pidsND, h.pidsLT, h.firedLT, h.pidsNotFired, h.firedND⟩
    | true =>
      simp only [wake, hk, if_pos rfl]
      cases hget : mapGet s.reg w.key with
      | some pid2 =>
        exact ⟨h.keysND, h.pidsND, h.pidsLT, h.firedLT, h.pidsNotFired, h.firedND⟩
      | none =>
        have hl := h.lockSt w.key hget
        exact ⟨hl.keysND, hl.pidsND, hl.pidsLT, hl.firedLT, hl.pidsNotFired, hl.firedND⟩

theorem StWF.processWakesSt :
    ∀ (ws : List Waiter) (s : St), StWF s → StWF (processWakes s ws) := by
  intro ws
  induction ws with
  | nil => intro s h; exact h
  | cons w ws ih =>
    intro s h
    exact ih (wake s w true) (h.wakeSt w true)

theorem StWF.stepSt {s : St} (h : StWF s) (a : Act) : StWF (step s a) := by
  cases a with
  | enterA c k t =>
    show StWF (stepEnter s c k t)
    cases hget : mapGet s.reg k with
    | some pid =>
      simp only [stepEnter, hget]
      exact ⟨h.keysND, h.pidsND, h.pidsLT, h.firedLT, h.pidsNotFired, h.firedND⟩
    | none =>
      simp only [stepEnter, hget]
      have hl := h.lockSt k hget
      exact ⟨hl.keysND, hl.pidsND, hl.pidsLT, hl.firedLT, hl.pidsNotFired, hl.firedND⟩
  | waitLeaveA c k t =>
    show StWF (stepWaitLeave s c k t)
    cases hget : mapGet s.reg k with
    | some pid =>
      simp only [stepWaitLeave, hget]
      exact ⟨h.keysND, h.pidsND, h.pidsLT, h.firedLT, h.pidsNotFired, h.firedND⟩
    | none =>
      simp only [stepWaitLeave, hget]
      exact ⟨h.keysND, h.pidsND, h.pidsLT, h.firedLT, h.pidsNotFired, h.firedND⟩
  | leaveA k =>
    show StWF (stepLeave s k)
    cases hget : mapGet s.reg k with
    | none => simpa [stepLeave, hget] using h
    | some pid =>
      simp only [stepLeave, hget]
      apply StWF.processWakesSt
      have hl := h.leaveSt k
      exact ⟨hl.keysND, hl.pidsND, hl.pidsLT, hl.firedLT, hl.pidsNotFired, hl.firedND⟩
  | timerA tid =>
    show StWF (stepTimer s tid)
    cases hfind : s.waiters.find? (fun w => w.timerId == some tid) with
    | none => simpa [stepTimer, hfind] using h
    | some w =>
      simp only [stepTimer, hfind]
      have h2 : StWF { s with waiters := s.waiters.filter (fun w2 => w2.timerId != some tid) } :=
        ⟨h.keysND, h.pidsND, h.pidsLT, h.firedLT, h.pidsNotFired, h.firedND⟩
      exact h2.wakeSt w false

theorem StWF.runSt : ∀ (as : List Act) (s : St), StWF s → StWF (run s as) := by
  intro as
  induction as with
  | nil => intro s h; exact h
  | cons a as ih =>
    intro s h
    exact ih (step s a) (h.stepSt a)

theorem StWF.initSt : StWF CriticalSectionModel.initSt := by
  refine ⟨?_, ?_, ?_, ?_, ?_, ?_⟩ <;> simp [CriticalSectionModel.initSt, regKeys, regPids]

/-- C10: `leave` removes the Lock Entry from the registry before resolving
its promise — the body of `leave` is `map.delete(obj)` followed by
`value.resolve?.(true)`, so the state in which the signal is recorded as
fired (and from which the scheduler then wakes the suspended observers)
already has no entry for the key: at that moment the key is free unless a
woken `enter` continuation re-acquires it.  Moreover a promise id, once
fired, is gone from the registry for good, so over any schedule from the
initial state no signal ever fires twice (`fired` has no duplicates) and
the promise of every live Lock Entry is still unfired. -/
theorem leave_removes_entry_before_signal :
    (∀ (s : St) (k pid : Nat), (s.reg.map Prod.fst).Nodup → mapGet s.reg k = some pid →
      mapGet (leave s k).reg k = none ∧ (leave s k).fired = s.fired ++ [pid]) ∧
    (∀ as : List Act, ((run initSt as).fired).Nodup ∧
      ∀ (k pid : Nat), mapGet (run initSt as).reg k = some pid →
        pid ∉ (run initSt as).fired) := by
  constructor
  · intro s k pid hnd hget
    have hleave : leave s k = { s with reg := mapDel s.reg k, fired := s.fired ++ [pid] } := by
      simp [leave, hget]
    rw [hleave]
    exact ⟨mapGet_mapDel_self s.reg k hnd, rfl⟩
  · intro as
    have hwf : StWF (run initSt as) := StWF.runSt as initSt StWF.initSt
    exact ⟨hwf.firedND, fun k pid hget =>
      hwf.pidsNotFired pid (mem_pids_of_get_some _ k pid hget)⟩

/-- Closed witness for `leave_removes_entry_before_signal`: key 4 held in
the initial state, and the schedule acquire-then-release on key 4. -/
theorem leave_removes_entry_before_signal_witness :
    (mapGet (leave (step initSt (.enterA 0 4 0)) 4).reg 4 = none ∧
      (leave (step initSt (.enterA 0 4 0)) 4).fired = [0]) ∧
    ((run initSt [.enterA 0 4 0, .leaveA 4]).fired.Nodup ∧
      ∀ (k pid : Nat), mapGet (run initSt [.enterA 0 4 0, .leaveA 4]).reg k = some pid →
        pid ∉ (run initSt [.enterA 0 4 0, .leaveA 4]).fired) := by
  constructor
  · have h := leave_removes_entry_before_signal.1 (step initSt (.enterA 0 4 0)) 4 0
      (by decide) (by decide)
    exact h
  · exact leave_removes_entry_before_signal.2 [.enterA 0 4 0, .leaveA 4]

/-! ### Non-positive timeouts never produce `false`

`_wait` installs the `setTimeout` race only `if (timeout > 0)`, and the
release signal is always resolved with `true` (`value.resolve?.(true)`),
so a call whose timeout is zero (the default), omitted, or negative can
only ever be completed by the release signal — with `true`. -/

/-- The `timeout` argument a suspended waiter's continuation carries. -/
def timeoutOf (w : Waiter) : Int :=
  match w.kind with
  | .enterK t => t
  | .waitLeaveK t => t

/-- A waiter owned by caller `c` that has no timer and a non-positive
timeout (vacuously true for other callers' waiters). -/
def goodFor (c : Nat) (w : Waiter) : Prop :=
  w.caller = c → (w.timerId = none ∧ timeoutOf w ≤ 0)

/-- Invariant: every pending waiter of caller `c` is timer-free with a
non-positive timeout, and no `false` has ever been delivered to `c`. -/
structure NoTimer (c : Nat) (s : St) : Prop where
  wtrs : ∀ w ∈ s.waiters, goodFor c w
  nf : (c, false) ∉ s.log

/-- Caller `c` only passes non-positive timeouts in this action. -/
def actOK (c : Nat) : Act → Prop
  | .enterA c2 _ t => c2 = c → t ≤ 0
  | .waitLeaveA c2 _ t => c2 = c → t ≤ 0
  | .leaveA _ => True
  | .timerA _ => True

theorem wake_false_log (s : St) (w : Waiter) :
    wake s w false = { s with log := s.log ++ [(w.caller, false)] } := by
  cases hk : w.kind <;> simp [wake, hk]

theorem NoTimer.wake_true {c : Nat} {s : St} (h : NoTimer c s) (w : Waiter)
    (hw : goodFor c w) : NoTimer c (wake s w true) := by
  cases hk : w.kind with
  | waitLeaveK t =>
    simp only [wake, hk]
    refine ⟨h.wtrs, ?_⟩
    intro hmem
    rcases List.mem_append.mp hmem with hm | hm
    · exact h.nf hm
    · simp at hm
  | enterK t =>
    simp only [wake, hk, if_pos rfl]
    cases hget : mapGet s.reg w.key with
    | none =>
      refine ⟨h.wtrs, ?_⟩
      intro hmem
      rcases List.mem_append.mp hmem with hm | hm
      · exact h.nf hm
      · simp at hm
    | some pid2 =>
      refine ⟨?_, h.nf⟩
      intro w2 hw2
      rcases List.mem_append.mp hw2 with hm | hm
      · exact h.wtrs w2 hm
      · simp at hm
        intro hc
        rw [hm] at hc
        simp at hc
        have ht : t ≤ 0 := by
          have := (hw hc).2
          rw [timeoutOf, hk] at this
          exact this
        have hnot : ¬ (0 < t) := by omega
        rw [hm]
        constructor
        · simp [hnot]
        · rw [timeoutOf]
          simp [ht]
  
theorem NoTimer.processWakes2 {c : Nat} :
    ∀ (ws : List Waiter) (s : St), NoTimer c s → (∀ w ∈ ws, goodFor c w) →
      NoTimer c (processWakes s ws) := by
  intro ws
  induction ws with
  | nil => intro s h _; exact h
  | cons w ws ih =>
    intro s h hws
    exact ih (wake s w true) (h.wake_true w (hws w (List.mem_cons_self w ws)))
      (fun w2 hw2 => hws w2 (List.mem_cons_of_mem w hw2))

theorem NoTimer.stepPres {c : Nat} {s : St} (h : NoTimer c s) (a : Act)
    (ha : actOK c a) : NoTimer c (step s a) := by
  cases a with
  | enterA c2 k t =>
    show NoTimer c (stepEnter s c2 k t)
    cases hget : mapGet s.reg k with
    | none =>
      simp only [stepEnter, hget]
      refine ⟨h.wtrs, ?_⟩
      intro hmem
      rcases List.mem_append.mp hmem with hm | hm
      · exact h.nf hm
      · simp at hm
    | some pid =>
      simp only [stepEnter, hget]
      refine ⟨?_, h.nf⟩
      intro w2 hw2
      rcases List.mem_append.mp hw2 with hm | hm
      · exact h.wtrs w2 hm
      · simp at hm
        intro hc
        rw [hm] at hc
        simp at hc
        have ht : t ≤ 0 := ha (by exact hc)
        have hnot : ¬ (0 < t) := by omega
        rw [hm]
        exact ⟨by simp [hnot], by rw [timeoutOf]; simp [ht]⟩
  | waitLeaveA c2 k t =>
    show NoTimer c (stepWaitLeave s c2 k t)
    cases hget : mapGet s.reg k with
    | none =>
      simp only [stepWaitLeave, hget]
      refine ⟨h.wtrs, ?_⟩
      intro hmem
      rcases List.mem_append.mp hmem with hm | hm
      · exact h.nf hm
      · simp at hm
    | some pid =>
      simp only [stepWaitLeave, hget]
      refine ⟨?_, h.nf⟩
      intro w2 hw2
      rcases List.mem_append.mp hw2 with hm | hm
      · exact h.wtrs w2 hm
      · simp at hm
        intro hc
        rw [hm] at hc
        simp at hc
        have ht : t ≤ 0 := ha (by exact hc)
        have hnot : ¬ (0 < t) := by omega
        rw [hm]
        exact ⟨by simp [hnot], by rw [timeoutOf]; simp [ht]⟩
  | leaveA k =>
    show NoTimer c (stepLeave s k)
    cases hget : mapGet s.reg k with
    | none => simpa [stepLeave, hget] using h
    | some pid =>
      simp only [stepLeave, hget]
      apply NoTimer.processWakes2
      · refine ⟨?_, ?_⟩
        · intro w2 hw2
          exact h.wtrs w2 (List.mem_of_mem_filter hw2)
        · show (c, false) ∉ (leave s k).log
          have : (leave s k).log = s.log := by simp [leave, hget]
          rw [this]
          exact h.nf
      · intro w2 hw2
        exact h.wtrs w2 (List.mem_of_mem_filter hw2)
  | timerA tid =>
    show NoTimer c (stepTimer s tid)
    cases hfind : s.waiters.find? (fun w => w.timerId == some tid) with
    | none => simpa [stepTimer, hfind] using h
    | some w =>
      simp only [stepTimer, hfind]
      have hmem : w ∈ s.waiters := List.mem_of_find?_eq_some hfind
      have hpred : (w.timerId == some tid) = true := by
        have hp2 := List.find?_some hfind
        simpa using hp2
      have hne : w.caller ≠ c := by
        intro hc
        have := (h.wtrs w hmem hc).1
        rw [this] at hpred
        simp at hpred
      rw [wake_false_log]
      refine ⟨?_, ?_⟩
      · intro w2 hw2
        exact h.wtrs w2 (List.mem_of_mem_filter hw2)
      · intro hmem2
        rcases List.mem_append.mp hmem2 with hm | hm
        · exact h.nf hm
        · simp at hm
          exact hne hm.symm

theorem NoTimer.runPres {c : Nat} :
    ∀ (as : List Act) (s : St), NoTimer c s → (∀ a ∈ as, actOK c a) →
      NoTimer c (run s as) := by
  intro as
  induction as with
  | nil => intro s h _; exact h
  | cons a as ih =>
    intro s h has
    exact ih (step s a) (h.stepPres a (has a (List.mem_cons_self a as)))
      (fun a2 ha2 => has a2 (List.mem_cons_of_mem a ha2))

/-- C9: a caller that only ever passes non-positive timeouts (zero — the
default when omitted — or negative) to `enter` and `waitLeave` is never
delivered `false`: `_wait` installs no timer for it (`if (timeout > 0)` is
skipped, on the first suspension and on every retry), so the only event
that can complete its suspended call is the release signal, which always
resolves to `true` — every non-positive timeout is an indefinite wait. -/
theorem nonpositive_timeout_never_false (c : Nat) (as : List Act)
    (ha : ∀ a ∈ as, actOK c a) : (c, false) ∉ (run initSt as).log := by
  have h0 : NoTimer c initSt := ⟨by simp [initSt], by simp [initSt]⟩
  exact (NoTimer.runPres as initSt h0 ha).nf

/-- Closed witness for `nonpositive_timeout_never_false`: caller 1 uses
timeouts 0 and -3 on key 7 while caller 2 uses a positive timeout whose
timer fires; caller 1 never receives `false`. -/
theorem nonpositive_timeout_never_false_witness :
    (1, false) ∉ (run initSt
      [.enterA 0 7 0, .enterA 1 7 0, .enterA 2 7 5, .waitLeaveA 1 7 (-3),
       .timerA 0, .leaveA 7, .leaveA 7]).log := by
  apply nonpositive_timeout_never_false 1
  intro a ha
  simp only [List.mem_cons, List.not_mem_nil, or_false] at ha
  rcases ha with rfl | rfl | rfl | rfl | rfl | rfl | rfl <;> simp [actOK]
